import Mathlib

/-!
Verification of the file-sync core and its import-side helpers of the
anytype-heart repository, against the natural-language specification.

Paths and identifiers are modelled as lists of characters; `str` converts a
literal.  The Go standard-library string and path helpers used by the code
(`strings.HasPrefix`, `strings.TrimPrefix`, `strings.TrimSuffix`,
`filepath.Ext`, `filepath.Clean`) are embedded below, following their
documented Go semantics.
-/

/-- A string literal as the list of its characters. -/
def str (s : String) : List Char := s.data

namespace GoStr

/-- Go `strings.HasPrefix(s, p)`: `p` is a leading segment of `s`
(here `hasPre p s`). -/
def hasPre : List Char → List Char → Bool
  | [], _ => true
  | _ :: _, [] => false
  | p :: ps, c :: cs => p == c && hasPre ps cs

/-- Go `strings.TrimPrefix(s, p)`: `s` without the leading `p`, or `s`
unchanged when `p` is not a leading segment. -/
def trimPre (s p : List Char) : List Char :=
  if hasPre p s then s.drop p.length else s

/-- Go `strings.HasSuffix(s, p)`. -/
def hasSuf (s p : List Char) : Bool :=
  hasPre p.reverse s.reverse

/-- Go `strings.TrimSuffix(s, p)`. -/
def trimSuf (s p : List Char) : List Char :=
  if hasSuf s p then s.take (s.length - p.length) else s

/-- Helper of `goExt`: walks the reversed path accumulating the scanned tail;
stops at a path separator, returns the suffix from the last dot. -/
def goExtAux : List Char → List Char → List Char
  | [], _ => []
  | c :: cs, acc =>
    if c = '/' then []
    else if c = '.' then c :: acc
    else goExtAux cs (c :: acc)

/-- Go `filepath.Ext(path)`: the suffix of the final element of `path`
beginning at the last dot, empty when there is no dot. -/
def goExt (path : List Char) : List Char :=
  goExtAux path.reverse []

/-- One step of Go `filepath.Clean`'s lexical processing over the
slash-separated components: drops empty and `.` components, a `..` pops the
previous component when possible, is dropped at the root, and is kept when
the path is relative and there is nothing to pop. -/
def cleanStep (rooted : Bool) (out : List (List Char)) (c : List Char) : List (List Char) :=
  if c = [] ∨ c = ['.'] then out
  else if c = ['.', '.'] then
    if out ≠ [] ∧ out.getLast? ≠ some ['.', '.'] then out.dropLast
    else if rooted then out
    else out ++ [c]
  else out ++ [c]

/-- Go `filepath.Clean(path)` for slash-separated paths: lexically simplifies
the path; the empty path cleans to `.`. -/
def goClean (path : List Char) : List Char :=
  if path = [] then ['.']
  else
    let rooted := hasPre ['/'] path
    let comps := path.splitOn '/'
    let out := comps.foldl (cleanStep rooted) []
    let joined := List.intercalate ['/'] out
    if rooted then '/' :: joined
    else if joined = [] then ['.']
    else joined

example : goClean (str "foo/a.txt") = str "foo/a.txt" := by decide
example : goClean (str "a//b/./c/../d") = str "a/b/d" := by decide
example : goClean (str "/../a") = str "/a" := by decide
example : goClean (str "") = str "." := by decide
example : goExt (str "dir/foo.zip") = str ".zip" := by decide
example : goExt (str "dir.d/foo") = str "" := by decide
example : trimSuf (str "dir/foo.zip") (str ".zip") = str "dir/foo" := by decide

end GoStr

/-!
The `Zip` import source (`source/zip.go` in the repository's sources):
`GetFileReaders(importPath, expectedExt)` opens a zip archive and returns a
map from cleaned, root-trimmed entry names to open readers.
-/

namespace ZipSrc

open GoStr

/-- An entry of a zip archive: its name, and whether `f.Open()` succeeds
(the reader contents are irrelevant to the embedded function, which stores
the readers unread). -/
structure ZipEntry where
  name : List Char
  openOk : Bool
deriving DecidableEq, Repr

/-- Modelled from the spec: `isSupportedExtension` is a helper of the source
package whose body is not among the repository's files; the call site and
the claim's wording (an extension not in the expected-extension list) give
list membership. -/
def isSupportedExtension (ext : List Char) (expectedExt : List (List Char)) : Bool :=
  expectedExt.contains ext

/-- Go map assignment `files[k] = v`: replaces the value of an existing key,
otherwise adds the pair. -/
def insertKV : List (List Char × ZipEntry) → List Char → ZipEntry → List (List Char × ZipEntry)
  | [], k, v => [(k, v)]
  | p :: ps, k, v => if p.1 = k then (k, v) :: ps else p :: insertKV ps k v

/-- The loop body of `Zip.GetFileReaders` for one archive entry `f`:
entries under `__MACOSX/` are skipped, entries with an unexpected extension
are skipped, the key is the cleaned name with `zipName ++ "/"` trimmed, and
an entry whose `Open()` fails is skipped. -/
def readEntry (zipName : List Char) (expectedExt : List (List Char))
    (files : List (List Char × ZipEntry)) (f : ZipEntry) : List (List Char × ZipEntry) :=
  if hasPre (str "__MACOSX/") f.name then files
  else if !isSupportedExtension (goExt f.name) expectedExt then files
  else
    let shortPath := trimPre (goClean f.name) (zipName ++ ['/'])
    if !f.openOk then files
    else insertKV files shortPath f

/-- `Zip.GetFileReaders(importPath, expectedExt)`: `archive` is the result of
`zip.OpenReader(importPath)` (`none` when opening fails, in which case the
error is returned); `zipName` is `importPath` with its extension trimmed. -/
def getFileReaders (importPath : List Char) (expectedExt : List (List Char))
    (archive : Option (List ZipEntry)) : Option (List (List Char × ZipEntry)) :=
  match archive with
  | none => none
  | some entries =>
    let zipName := trimSuf importPath (goExt importPath)
    some (entries.foldl (readEntry zipName expectedExt) [])

example :
    getFileReaders (str "foo.zip") [str ".txt"]
      (some [⟨str "foo/a.txt", true⟩, ⟨str "__MACOSX/x.txt", true⟩, ⟨str "foo/b.md", true⟩]) =
      some [(str "a.txt", ⟨str "foo/a.txt", true⟩)] := by decide

end ZipSrc

/-!
The `TXT` converter (`core/block/import/txt/converter.go`):
`GetSnapshots` turns the txt paths of an object-import request into
snapshots, accumulating converter errors in a shared `ConvertError`.
The collaborators it calls (`source.GetSource`, `process.Progress`,
`converter.ConvertError.ShouldAbortImport`, `anymark.MarkdownToBlocks`,
`converter.NewRootCollection`) live outside the repository's staged files
and are modelled as an abstract environment; the error values themselves
(`converter.ErrNoObjectsToImport`, `converter.ErrCancel`) are embedded as
constructors.
-/

namespace TxtSrc

open GoStr

/-- A converter error: the two sentinel errors of the converter package and
an opaque remainder. -/
inductive CErr where
  | errNoObjectsToImport
  | errCancel
  | other (msg : List Char)
deriving DecidableEq, Repr

/-- A file yielded by an import source's `Iterate`: its name and the result
of reading and converting it (`some e` when `getBlocksForSnapshot` fails).
The produced blocks themselves are outside the claim and are not modelled. -/
structure TxtFile where
  name : List Char
  readErr : Option CErr
deriving DecidableEq, Repr

/-- An import source for one path, as `handleImportPath` consumes it:
the result of `Initialize`, and the files `Iterate` yields in order, with
the error `Iterate` itself returns. -/
structure ImportSrc where
  initErr : Option CErr
  files : List TxtFile
  iterateErr : Option CErr
deriving DecidableEq, Repr

/-- `CountFilesWithGivenExtensions([".txt"])` of an import source: the
number of its files with extension `.txt` (the helper's body is outside the
staged files; its name and the use made of the count give this reading). -/
def countTxt (s : ImportSrc) : Nat :=
  (s.files.filter (fun f => goExt f.name == str ".txt")).length

/-- A snapshot as far as the claim observes it: the file it was built from
(`getSnapshot` also attaches converted blocks and a fresh uuid, neither of
which the claim mentions). -/
structure Snap where
  fileName : List Char
deriving DecidableEq, Repr

/-- The abstract environment of a `GetSnapshots` run: which source each path
resolves to, the result of each `progress.TryStep` call (indexed by call
count), the `ShouldAbortImport` predicate of the accumulated error list, and
the result of `MakeRootCollection`. -/
structure TxtEnv where
  src : List Char → ImportSrc
  tryStepErr : Nat → Option CErr
  shouldAbort : List CErr → Nat → Bool
  rootCollection : Except CErr (Option Snap)

/-- The import request as `TXT.GetParams` reads it: `txtParams` is
`req.GetTxtParams()` (`none` when absent), holding its `Path` slice. -/
structure TxtReq where
  txtParams : Option (List (List Char))

/-- `TXT.GetParams`: the request's txt paths, `[]` when there are none. -/
def getParams (req : TxtReq) : List (List Char) :=
  match req.txtParams with
  | some p => p
  | none => []

/-- The `Iterate` loop of `handleImportPath`: files without the `.txt`
extension are skipped; a read error is added to the error list and aborts
the iteration when `ShouldAbortImport` says so; otherwise a snapshot and
target object are appended even when the blocks conversion failed. -/
def iterFiles (env : TxtEnv) (pathsCount : Nat) :
    List TxtFile → List Snap → List (List Char) → List CErr →
    List Snap × List (List Char) × List CErr
  | [], sns, tos, errs => (sns, tos, errs)
  | f :: fs, sns, tos, errs =>
    if goExt f.name ≠ str ".txt" then iterFiles env pathsCount fs sns tos errs
    else
      match f.readErr with
      | some e =>
        let errs1 := errs ++ [e]
        if env.shouldAbort errs1 pathsCount then (sns, tos, errs1)
        else iterFiles env pathsCount fs (sns ++ [⟨f.name⟩]) (tos ++ [f.name]) errs1
      | none => iterFiles env pathsCount fs (sns ++ [⟨f.name⟩]) (tos ++ [f.name]) errs

/-- The body of `handleImportPath` after `Initialize`: a source with no
`.txt` file records `ErrNoObjectsToImport` and yields nothing; otherwise the
files are iterated and a non-nil `Iterate` error is appended. -/
def handleAfterInit (env : TxtEnv) (s : ImportSrc) (pathsCount : Nat) (errs : List CErr) :
    List Snap × List (List Char) × List CErr :=
  if countTxt s = 0 then ([], [], errs ++ [CErr.errNoObjectsToImport])
  else
    let r := iterFiles env pathsCount s.files [] [] errs
    match s.iterateErr with
    | some e => (r.1, r.2.1, r.2.2 ++ [e])
    | none => r

/-- `TXT.handleImportPath`: initializes the path's source (recording a
failure, and aborting when `ShouldAbortImport` says so) and then processes
its files. -/
def handleImportPath (env : TxtEnv) (p : List Char) (pathsCount : Nat) (errs : List CErr) :
    List Snap × List (List Char) × List CErr :=
  let s := env.src p
  match s.initErr with
  | some e =>
    let errs1 := errs ++ [e]
    if env.shouldAbort errs1 pathsCount then ([], [], errs1)
    else handleAfterInit env s pathsCount errs1
  | none => handleAfterInit env s pathsCount errs

/-- The path loop of `TXT.getSnapshots` (`k` counts the `TryStep` calls made
so far): a failing `TryStep` records `ErrCancel` and returns nil results; an
abort after a path likewise returns nil results, keeping the error list. -/
def getSnapsAux (env : TxtEnv) (pathsCount : Nat) :
    List (List Char) → Nat → List Snap → List (List Char) → List CErr →
    List Snap × List (List Char) × List CErr
  | [], _, sns, tos, errs => (sns, tos, errs)
  | p :: ps, k, sns, tos, errs =>
    match env.tryStepErr k with
    | some _ => ([], [], errs ++ [CErr.errCancel])
    | none =>
      let r := handleImportPath env p pathsCount errs
      if env.shouldAbort r.2.2 pathsCount then ([], [], r.2.2)
      else getSnapsAux env pathsCount ps (k + 1) (sns ++ r.1) (tos ++ r.2.1) r.2.2

/-- The response of `GetSnapshots` as far as the claim observes it. -/
structure TxtResponse where
  snapshots : List Snap
  rootCollectionID : List Char
deriving DecidableEq, Repr

/-- The tail of `TXT.GetSnapshots` after the root collection was made:
appends a non-nil root collection to the snapshots, takes its id, and
returns a nil error exactly when the accumulated error list is empty. -/
def finish (sns : List Snap) (errs : List CErr) (rc : Option Snap) :
    Option TxtResponse × Option (List CErr) :=
  let sns1 :=
    match rc with
    | some c => sns ++ [c]
    | none => sns
  let rootId :=
    match rc with
    | some c => c.fileName
    | none => []
  if errs = [] then (some ⟨sns1, rootId⟩, none)
  else (some ⟨sns1, rootId⟩, some errs)

/-- `TXT.GetSnapshots`: returns `(none, none)` when the request has no txt
paths; otherwise collects snapshots, attaches the root collection, and
returns the accumulated `ConvertError` when it is non-empty (`none` stands
for a nil response or nil error). -/
def getSnapshots (env : TxtEnv) (req : TxtReq) :
    Option TxtResponse × Option (List CErr) :=
  let paths := getParams req
  if paths.length = 0 then (none, none)
  else
    let r := getSnapsAux env paths.length paths 0 [] [] []
    if env.shouldAbort r.2.2 paths.length then (none, some r.2.2)
    else
      match env.rootCollection with
      | .error e =>
        let errs1 := r.2.2 ++ [e]
        if env.shouldAbort errs1 paths.length then (none, some errs1)
        else finish r.1 errs1 none
      | .ok rc => finish r.1 r.2.2 rc

end TxtSrc

/-!
`Middleware.UserDataImport` (`core/userdataimport.go`): imports a user
profile, recreates the account from the profile's mnemonic, imports the
user data, and clears the middleware's stored mnemonic at the end.  The
external calls (`importer.ImportUserProfile`, `mw.stop`, `os.MkdirAll`,
`mw.setMnemonic`, `core.WalletAccountAt`, `files.WriteJsonConfig`,
`anytype.StartNewApp`, `bs.SetDetails`, `importer.ImportUserData`) are
modelled as an abstract environment of outcomes; `mw.setMnemonic(m)` sets
the middleware's `mnemonic` field to `m`, as its name and the immediate
use of `mw.mnemonic` by `WalletAccountAt` show.
-/

namespace UserDataSrc

/-- The profile `ImportUserProfile` returns. -/
structure Profile where
  name : List Char
  mnemonic : List Char
  avatar : List Char
deriving DecidableEq, Repr

/-- The import request fields `createAccount` reads. -/
structure UDReq where
  rootPath : List Char
  storePath : List Char
deriving DecidableEq, Repr

/-- The middleware state the function touches: the stored mnemonic, the
root path and the found accounts (by address). -/
structure MWState where
  mnemonic : List Char
  rootPath : List Char
  foundAccounts : List (List Char)
deriving DecidableEq, Repr

/-- Outcomes of the external calls, in the order the code makes them; an
error is carried as its `Error()` text. -/
structure UDEnv where
  importProfile : Except (List Char) Profile
  stopErr : Option (List Char)
  mkdirRootErr : Option (List Char)
  setMnemonicErr : Option (List Char)
  walletAccount : List Char → Except (List Char) (List Char)
  mkdirStoreErr : Option (List Char)
  writeConfigErr : Option (List Char)
  startAppErr : Option (List Char)
  setDetailsErr : Option (List Char)
  importUserDataErr : Option (List Char)

/-- The tail of `createAccount` after the wallet account was derived:
optionally writes the custom store config, starts the app, sets the profile
details and registers the account. -/
def createAccountTail (env : UDEnv) (req : UDReq) (addr : List Char) (st : MWState) :
    MWState × Option (List Char) :=
  let cfgStep : Option (List Char) :=
    if req.storePath ≠ [] ∧ req.storePath ≠ st.rootPath then
      match env.mkdirStoreErr with
      | some e => some e
      | none => env.writeConfigErr
    else none
  match cfgStep with
  | some e => (st, some e)
  | none =>
    match env.startAppErr with
    | some e => (st, some e)
    | none =>
      match env.setDetailsErr with
      | some e => (st, some e)
      | none => ({ st with foundAccounts := st.foundAccounts ++ [addr] }, none)

/-- `Middleware.createAccount`: stops the app, resets the root path and the
found accounts, creates the root directory, stores the profile's mnemonic
via `setMnemonic`, derives the wallet account from the stored mnemonic and
finishes with `createAccountTail`. -/
def createAccount (env : UDEnv) (profile : Profile) (req : UDReq) (st : MWState) :
    MWState × Option (List Char) :=
  match env.stopErr with
  | some e => (st, some e)
  | none =>
    let st1 := { st with rootPath := req.rootPath, foundAccounts := [] }
    match env.mkdirRootErr with
    | some e => (st1, some e)
    | none =>
      match env.setMnemonicErr with
      | some e => (st1, some e)
      | none =>
        let st2 := { st1 with mnemonic := profile.mnemonic }
        match env.walletAccount st2.mnemonic with
        | .error e => (st2, some e)
        | .ok addr => createAccountTail env req addr st2

/-- The error code of a `RpcUserDataImportResponse`. -/
inductive UDCode where
  | null
  | unknownError
deriving DecidableEq, Repr

/-- The response: an error code and the error's description (empty for the
nil error). -/
structure UDResp where
  code : UDCode
  description : List Char
deriving DecidableEq, Repr

/-- `Middleware.UserDataImport`: imports the profile, recreates the account,
imports the user data; any failure is answered with `UNKNOWN_ERROR` carrying
the error's description, and only the fully successful path clears the
stored mnemonic. -/
def userDataImport (env : UDEnv) (req : UDReq) (st : MWState) : MWState × UDResp :=
  match env.importProfile with
  | .error e => (st, ⟨UDCode.unknownError, e⟩)
  | .ok profile =>
    match createAccount env profile req st with
    | (st1, some e) => (st1, ⟨UDCode.unknownError, e⟩)
    | (st1, none) =>
      match env.importUserDataErr with
      | some e => (st1, ⟨UDCode.unknownError, e⟩)
      | none => ({ st1 with mnemonic := [] }, ⟨UDCode.null, []⟩)

end UserDataSrc

/-!
The file synchronization core.  Its implementation is not among the
repository's staged files (only its test, `filesync_test.go`, is), so the
durable task queue and the sync scheduler are modelled from the
specification: tasks keyed by `(namespace, file)` with merge-on-re-enqueue
semantics (section 4.1), dequeue in insertion order among tasks not under
backoff, exponential capped backoff with a dead-letter state after a
configured maximum attempt count, and the diff-and-transfer protocol of
section 4.4.  Time is an abstract monotone counter.
-/

namespace FileSyncSpec

/-- Modelled from the spec: the kind of a task, Upload or Delete. -/
inductive TaskKind where
  | upload
  | delete
deriving DecidableEq, Repr

/-- Modelled from the spec: a task of the durable queue — namespace
("space") id, file id, kind, attempt count, enqueue time, backoff deadline
and last error. -/
structure Task where
  space : String
  file : String
  kind : TaskKind
  attempts : Nat
  insertTime : Nat
  backoffUntil : Nat
  lastErr : Option String
deriving DecidableEq, Repr

/-- Whether task `t` is for the key `(ns, f)`. -/
def keyIs (ns f : String) (t : Task) : Bool :=
  t.space == ns && t.file == f

/-- Modelled from the spec: the queue state — the pending tasks in
insertion order, and the dead-lettered tasks. -/
structure QState where
  pending : List Task
  dead : List Task
deriving DecidableEq, Repr

/-- The empty queue. -/
def emptyQ : QState := ⟨[], []⟩

/-- Modelled from the spec: `Len()` counts the currently pending tasks,
the backed-off ones included. -/
def qLen (s : QState) : Nat := s.pending.length

/-- Modelled from the spec: the retry/backoff configuration — maximum
attempt count, base backoff delay and backoff cap. -/
structure Config where
  maxAttempts : Nat
  baseBackoff : Nat
  maxBackoff : Nat
deriving DecidableEq, Repr

/-- Modelled from the spec: `Enqueue(namespace, file, kind)` — when a task
with the same `(namespace, file)` key exists it is updated in place (last
write wins on kind, the attempt count is reset to zero only when the kind
changes); otherwise a fresh task is appended. -/
def enqueue (ns f : String) (k : TaskKind) (now : Nat) (s : QState) : QState :=
  if s.pending.any (keyIs ns f) then
    { s with pending := s.pending.map (fun t =>
        if keyIs ns f t then
          { t with kind := k, attempts := if t.kind = k then t.attempts else 0 }
        else t) }
  else
    { s with pending := s.pending ++ [⟨ns, f, k, 0, now, 0, none⟩] }

/-- Whether a pending task is eligible at time `now`: its backoff deadline
has elapsed. -/
def eligible (now : Nat) (t : Task) : Bool :=
  t.backoffUntil ≤ now

/-- Modelled from the spec: the pending-list part of `Dequeue()` — removes
and returns the first task, in insertion order, that is not under backoff;
tasks whose backoff deadline has not elapsed are skipped. -/
def dequeueL (now : Nat) : List Task → Option Task × List Task
  | [] => (none, [])
  | t :: ts =>
    if eligible now t then (some t, ts)
    else
      let r := dequeueL now ts
      (r.1, t :: r.2)

/-- Modelled from the spec: `Dequeue()`; `none` when no eligible task
exists. -/
def dequeue (now : Nat) (s : QState) : Option Task × QState :=
  let r := dequeueL now s.pending
  (r.1, { s with pending := r.2 })

/-- Modelled from the spec: `Complete(taskKey)` removes the key's task;
idempotent, a missing task is no error. -/
def complete (ns f : String) (s : QState) : QState :=
  { s with pending := s.pending.filter (fun t => !keyIs ns f t) }

/-- Modelled from the spec: the backoff delay after `attempts` attempts —
exponential in the attempt count, capped at `maxBackoff`. -/
def backoffDelay (cfg : Config) (attempts : Nat) : Nat :=
  min (cfg.baseBackoff * 2 ^ attempts) cfg.maxBackoff

/-- The updated task `Fail` re-persists: attempt count incremented, last
error recorded, next backoff deadline assigned. -/
def bump (cfg : Config) (e : String) (now : Nat) (t : Task) : Task :=
  { t with attempts := t.attempts + 1,
           lastErr := some e,
           backoffUntil := now + backoffDelay cfg (t.attempts + 1) }

/-- Modelled from the spec: the pending-list part of `Fail(taskKey, err)` —
the key's task gets its attempt count incremented and its backoff deadline
assigned; a task that reached the configured maximum attempt count is
removed from the pending list and returned as dead-lettered. -/
def failL (cfg : Config) (ns f e : String) (now : Nat) :
    List Task → List Task × Option Task
  | [] => ([], none)
  | t :: ts =>
    if keyIs ns f t then
      let t1 := bump cfg e now t
      if cfg.maxAttempts ≤ t1.attempts then (ts, some t1)
      else (t1 :: ts, none)
    else
      let r := failL cfg ns f e now ts
      (t :: r.1, r.2)

/-- Modelled from the spec: `Fail(taskKey, err)`. -/
def fail (cfg : Config) (ns f e : String) (now : Nat) (s : QState) : QState :=
  let r := failL cfg ns f e now s.pending
  { pending := r.1, dead := s.dead ++ r.2.toList }

/-- Modelled from the spec: a call to the Remote Sync Client boundary —
an existence query, a block push, or a file deletion. -/
inductive RemoteCall where
  | existsQuery (space : String) (addrs : List String)
  | push (space file : String) (blocks : List String)
  | deleteCall (space file : String)
deriving DecidableEq, Repr

/-- Modelled from the spec: the scheduler's handling of one dequeued task on
the success path of section 4.4.  For an Upload: resolve the file's block
addresses, query `ExistsRemotely`, push the delta (resolved minus
remote-existing) and `Complete`.  For a Delete: call `DeleteFile` directly
and `Complete`.  `resolve` is the Content Store Adapter, `has` the remote's
per-address presence. -/
def processTask (resolve : String → List String) (has : String → String → Bool)
    (t : Task) (s : QState) : List RemoteCall × QState :=
  match t.kind with
  | TaskKind.upload =>
    let addrs := resolve t.file
    let delta := addrs.filter (fun a => !has t.space a)
    ([RemoteCall.existsQuery t.space addrs, RemoteCall.push t.space t.file delta],
     complete t.space t.file s)
  | TaskKind.delete =>
    ([RemoteCall.deleteCall t.space t.file], complete t.space t.file s)

/-- The blocks pushed by a list of remote calls. -/
def pushedBlocks : List RemoteCall → List String
  | [] => []
  | RemoteCall.push _ _ bs :: cs => bs ++ pushedBlocks cs
  | _ :: cs => pushedBlocks cs

/-- Modelled from the spec: `AddFile(namespace, fileID)` enqueues an Upload
task and returns immediately; the error component is `none` because the
model's persistence never fails. -/
def addFile (ns f : String) (now : Nat) (s : QState) : Option String × QState :=
  (none, enqueue ns f TaskKind.upload now s)

/-- Modelled from the spec: `RemoveFile(namespace, fileID)` enqueues a
Delete task and returns immediately; the error component is `none` because
the model's persistence never fails. -/
def removeFile (ns f : String) (now : Nat) (s : QState) : Option String × QState :=
  (none, enqueue ns f TaskKind.delete now s)

end FileSyncSpec

namespace FileSyncSpec

/-!
Operation sequences over the queue, for the temporal claims: any
interleaving of enqueues, dequeues, completions and failures.
-/

/-- Modelled from the spec: one queue operation. -/
inductive QOp where
  | enq (ns f : String) (k : TaskKind) (now : Nat)
  | deq (now : Nat)
  | comp (ns f : String)
  | failOp (ns f e : String) (now : Nat)
deriving DecidableEq, Repr

/-- The state after one operation (a dequeued task is handed to a worker;
only the queue state is kept here). -/
def applyOp (cfg : Config) : QOp → QState → QState
  | QOp.enq ns f k now, s => enqueue ns f k now s
  | QOp.deq now, s => (dequeue now s).2
  | QOp.comp ns f, s => complete ns f s
  | QOp.failOp ns f e now, s => fail cfg ns f e now s

/-- The state after a sequence of operations. -/
def runOps (cfg : Config) : List QOp → QState → QState
  | [], s => s
  | op :: ops, s => runOps cfg ops (applyOp cfg op s)

/-- Every task handed to a worker during a sequence of operations. -/
def dequeuedBy (cfg : Config) : List QOp → QState → List Task
  | [], _ => []
  | op :: ops, s =>
    (match op with
     | QOp.deq now => (dequeue now s).1.toList
     | _ => []) ++ dequeuedBy cfg ops (applyOp cfg op s)

/-- Whether an operation enqueues under the key `(ns, f)`. -/
def enqueuesKey (ns f : String) : QOp → Bool
  | QOp.enq ns1 f1 _ _ => ns1 == ns && f1 == f
  | _ => false

/-!
The durable layer backing the queue, for the transaction claim: one record
per pending task in a keyed store, each mutating operation a single
atomically committed transaction of record writes.
-/

/-- Modelled from the spec: the durable key of a task's record,
`(namespace, fileID, kind)`. -/
def recKey (t : Task) : String × String × TaskKind :=
  (t.space, t.file, t.kind)

/-- Modelled from the spec: a durable record — its key and the value
holding attempt count, timestamp and last error text. -/
structure TaskRec where
  space : String
  file : String
  kind : TaskKind
  attempts : Nat
  insertTime : Nat
  lastErr : Option String
deriving DecidableEq, Repr

/-- The record persisted for a task. -/
def encodeTask (t : Task) : TaskRec :=
  ⟨t.space, t.file, t.kind, t.attempts, t.insertTime, t.lastErr⟩

/-- The durable key of a record. -/
def recKeyR (r : TaskRec) : String × String × TaskKind :=
  (r.space, r.file, r.kind)

/-- The durable view of a queue state: one record per pending task (a
dequeued-but-running task stays persisted until `Complete`, and a
dead-lettered task's record is dropped from the pending store). -/
def persistQ (s : QState) : List TaskRec :=
  s.pending.map encodeTask

/-- Modelled from the spec: a primitive write of the keyed byte-oriented
store — put a record, or delete a key's record. -/
inductive KvWrite where
  | put (r : TaskRec)
  | delRec (k : String × String × TaskKind)
deriving DecidableEq, Repr

/-- One write applied to the store: `put` replaces the record holding the
same key or appends, `delRec` removes the key's record. -/
def applyWrite (store : List TaskRec) : KvWrite → List TaskRec
  | KvWrite.put r =>
    if store.any (fun q => recKeyR q = recKeyR r) then
      store.map (fun q => if recKeyR q = recKeyR r then r else q)
    else store ++ [r]
  | KvWrite.delRec k => store.filter (fun q => !(recKeyR q = k : Bool))

/-- A transaction committed atomically: all of its writes applied. -/
def commitTxn (store : List TaskRec) (txn : List KvWrite) : List TaskRec :=
  txn.foldl applyWrite store

/-- Modelled from the spec: a mutating queue operation (`Enqueue`,
`Complete`, `Fail`; `Dequeue` leaves the durable state untouched, a running
task stays persisted until completion). -/
inductive MutOp where
  | enq (ns f : String) (k : TaskKind) (now : Nat)
  | comp (ns f : String)
  | failOp (ns f e : String) (now : Nat)
deriving DecidableEq, Repr

/-- The in-memory effect of a mutating operation. -/
def applyMut (cfg : Config) : MutOp → QState → QState
  | MutOp.enq ns f k now, s => enqueue ns f k now s
  | MutOp.comp ns f, s => complete ns f s
  | MutOp.failOp ns f e now, s => fail cfg ns f e now s

/-- The single transaction a mutating operation issues against the durable
store, derived from the state it runs in: an enqueue puts the merged or
fresh record (deleting the old key first when the kind changes), a
completion deletes the key's record, a failure re-puts the bumped record or
deletes it when the task dead-letters. -/
def opTxn (cfg : Config) (op : MutOp) (s : QState) : List KvWrite :=
  match op with
  | MutOp.enq ns f k now =>
    match s.pending.find? (keyIs ns f) with
    | some t0 =>
      if t0.kind = k then
        [KvWrite.put (encodeTask { t0 with kind := k, attempts := if t0.kind = k then t0.attempts else 0 })]
      else
        [KvWrite.delRec (recKey t0),
         KvWrite.put (encodeTask { t0 with kind := k, attempts := 0 })]
    | none => [KvWrite.put (encodeTask ⟨ns, f, k, 0, now, 0, none⟩)]
  | MutOp.comp ns f =>
    match s.pending.find? (keyIs ns f) with
    | some t0 => [KvWrite.delRec (recKey t0)]
    | none => []
  | MutOp.failOp ns f e now =>
    match s.pending.find? (keyIs ns f) with
    | some t0 =>
      let t1 := bump cfg e now t0
      if cfg.maxAttempts ≤ t1.attempts then [KvWrite.delRec (recKey t0)]
      else [KvWrite.put (encodeTask t1)]
    | none => []

/-- The durable store visible after a crash during a transaction: the
store's transactionality hides every uncommitted write, so the prior store
when the commit point was not reached, the fully written store after it. -/
def crashDurable (store : List TaskRec) (txn : List KvWrite) (committed : Bool) :
    List TaskRec :=
  if committed then commitTxn store txn else store

/-- A task reloaded from its record on restart: backoff deadline reset
relative to the restart (the spec resets backoff timers on restart). -/
def decodeTask (r : TaskRec) : Task :=
  ⟨r.space, r.file, r.kind, r.attempts, r.insertTime, 0, r.lastErr⟩

/-- Modelled from the spec: reload on restart — every persisted record
becomes a pending task again, immediately eligible. -/
def loadQ (store : List TaskRec) : QState :=
  ⟨store.map decodeTask, []⟩

/-- The key-uniqueness invariant of the queue: no two pending tasks share
the `(namespace, file)` key. -/
def wfQ (s : QState) : Prop :=
  (s.pending.map (fun t => (t.space, t.file))).Nodup

instance (s : QState) : Decidable (wfQ s) := by
  unfold wfQ; infer_instance

/-- A queue state with every backoff deadline cleared, as a restart leaves
it. -/
def resetBackoffs (s : QState) : QState :=
  ⟨s.pending.map (fun t => { t with backoffUntil := 0 }), []⟩

end FileSyncSpec

/-!
Claim theorems.
-/

namespace ZipSrc

/-- C8: `Zip.GetFileReaders` does skip `__MACOSX/` entries, unexpected
extensions and unopenable entries, and errs only when the archive itself
cannot be opened — but the root-folder stripping the claim (and the code's
own comment, "remove zip root folder if exists") describes fails whenever
the archive path has a directory part: the code trims the prefix
`importPath` minus its extension, `"dir/foo/"` here, which no entry name
carries, so the key of entry `foo/a.txt` keeps the root folder `foo/`.
Opened from the bare name `foo.zip` the same archive is stripped to
`a.txt`, as the comment intends. -/
theorem getFileReaders_root_folder_kept_at_dir_path :
    getFileReaders (str "dir/foo.zip") [str ".txt"] (some [⟨str "foo/a.txt", true⟩]) =
      some [(str "foo/a.txt", ⟨str "foo/a.txt", true⟩)] ∧
    getFileReaders (str "foo.zip") [str ".txt"] (some [⟨str "foo/a.txt", true⟩]) =
      some [(str "a.txt", ⟨str "foo/a.txt", true⟩)] ∧
    str "foo/a.txt" ≠ str "a.txt" := by
  refine ⟨by decide, by decide, by decide⟩

end ZipSrc

namespace UserDataSrc

/-- A concrete run of `UserDataImport` in which profile import and account
creation succeed and the user-data import fails. -/
def envLateFailure : UDEnv where
  importProfile := Except.ok ⟨str "alice", str "new words", str "avatar"⟩
  stopErr := none
  mkdirRootErr := none
  setMnemonicErr := none
  walletAccount := fun _ => Except.ok (str "addr1")
  mkdirStoreErr := none
  writeConfigErr := none
  startAppErr := none
  setDetailsErr := none
  importUserDataErr := some (str "user data import failed")

/-- The prior middleware state of the concrete run. -/
def stBefore : MWState := ⟨str "old words", str "/old", [str "acc0"]⟩

/-- C10, counterexample: when account creation has already succeeded and the
user-data import then fails, the response is `UNKNOWN_ERROR` as the claim
says, but the stored mnemonic is NOT left unchanged: `createAccount` already
overwrote it with the imported profile's mnemonic. -/
theorem mnemonic_changed_on_late_failure :
    (userDataImport envLateFailure ⟨str "/new", []⟩ stBefore).2 =
      ⟨UDCode.unknownError, str "user data import failed"⟩ ∧
    (userDataImport envLateFailure ⟨str "/new", []⟩ stBefore).1.mnemonic = str "new words" ∧
    str "new words" ≠ str "old words" := by
  refine ⟨rfl, rfl, by decide⟩

/-- `createAccountTail` never touches the stored mnemonic. -/
theorem createAccountTail_mnemonic (env : UDEnv) (req : UDReq) (addr : List Char)
    (st : MWState) : (createAccountTail env req addr st).1.mnemonic = st.mnemonic := by
  unfold createAccountTail
  dsimp only
  repeat' split
  all_goals rfl

/-- After `createAccount` the stored mnemonic is either the prior one (the
failure came before `setMnemonic` succeeded) or the imported profile's. -/
theorem createAccount_mnemonic (env : UDEnv) (p : Profile) (req : UDReq) (st : MWState) :
    (createAccount env p req st).1.mnemonic = st.mnemonic ∨
    (createAccount env p req st).1.mnemonic = p.mnemonic := by
  unfold createAccount
  dsimp only
  split
  · exact Or.inl rfl
  · split
    · exact Or.inl rfl
    · split
      · exact Or.inl rfl
      · split
        · exact Or.inr rfl
        · exact Or.inr (createAccountTail_mnemonic ..)

/-- A successful `createAccount` leaves the profile's mnemonic stored. -/
theorem createAccount_ok_mnemonic (env : UDEnv) (p : Profile) (req : UDReq) (st : MWState)
    (h : (createAccount env p req st).2 = none) :
    (createAccount env p req st).1.mnemonic = p.mnemonic := by
  rcases createAccount_mnemonic env p req st with h1 | h1
  · revert h h1
    unfold createAccount
    dsimp only
    split
    · simp
    · split
      · simp
      · split
        · simp
        · split
          · simp
          · intro _ _
            exact createAccountTail_mnemonic ..
  · exact h1

end UserDataSrc

namespace UserDataSrc

/-- C10, amended: `UserDataImport` clears the stored mnemonic only on the
path where profile import, account creation and user-data import all
succeeded, and on any failure it returns `UNKNOWN_ERROR` carrying the
error's description — but a failure does not leave the mnemonic field
unchanged in general: after a successful `createAccount` the field already
holds the imported profile's mnemonic, so on a late failure the stored
mnemonic is the profile's, and in every failing case it is either the prior
value or the profile's. -/
theorem user_data_import_mnemonic_policy :
    (∀ (env : UDEnv) (req : UDReq) (st : MWState) (e : List Char),
      env.importProfile = Except.error e →
      userDataImport env req st = (st, ⟨UDCode.unknownError, e⟩)) ∧
    (∀ (env : UDEnv) (req : UDReq) (st : MWState) (p : Profile) (e : List Char),
      env.importProfile = Except.ok p →
      (createAccount env p req st).2 = some e →
      userDataImport env req st = ((createAccount env p req st).1, ⟨UDCode.unknownError, e⟩) ∧
      ((createAccount env p req st).1.mnemonic = st.mnemonic ∨
       (createAccount env p req st).1.mnemonic = p.mnemonic)) ∧
    (∀ (env : UDEnv) (req : UDReq) (st : MWState) (p : Profile) (e : List Char),
      env.importProfile = Except.ok p →
      (createAccount env p req st).2 = none →
      env.importUserDataErr = some e →
      userDataImport env req st = ((createAccount env p req st).1, ⟨UDCode.unknownError, e⟩) ∧
      (createAccount env p req st).1.mnemonic = p.mnemonic) ∧
    (∀ (env : UDEnv) (req : UDReq) (st : MWState) (p : Profile),
      env.importProfile = Except.ok p →
      (createAccount env p req st).2 = none →
      env.importUserDataErr = none →
      (userDataImport env req st).1.mnemonic = [] ∧
      (userDataImport env req st).2 = ⟨UDCode.null, []⟩) := by
  refine ⟨?_, ?_, ?_, ?_⟩
  · intro env req st e h1
    simp only [userDataImport, h1]
  · intro env req st p e h1 h2
    refine ⟨?_, createAccount_mnemonic env p req st⟩
    rcases hca : createAccount env p req st with ⟨st1, oe⟩
    rw [hca] at h2
    dsimp only at h2
    subst h2
    simp only [userDataImport, h1, hca]
  · intro env req st p e h1 h2 h3
    refine ⟨?_, createAccount_ok_mnemonic env p req st h2⟩
    rcases hca : createAccount env p req st with ⟨st1, oe⟩
    rw [hca] at h2
    dsimp only at h2
    subst h2
    simp only [userDataImport, h1, hca, h3]
  · intro env req st p h1 h2 h3
    rcases hca : createAccount env p req st with ⟨st1, oe⟩
    rw [hca] at h2
    dsimp only at h2
    subst h2
    simp only [userDataImport, h1, hca, h3]
    exact ⟨trivial, trivial⟩

end UserDataSrc

namespace TxtSrc

/-- C9: `TXT.GetSnapshots` returns a nil response and a nil error when the
request holds no txt paths (whether the txt params are absent or their path
slice is empty); and when a path is given whose source initializes but
yields zero `.txt` files, `ErrNoObjectsToImport` is recorded and the
returned `ConvertError` is non-nil and contains it. -/
theorem get_snapshots_no_paths_and_no_objects :
    (∀ env : TxtEnv,
      getSnapshots env ⟨none⟩ = (none, none) ∧
      getSnapshots env ⟨some []⟩ = (none, none)) ∧
    (∀ (env : TxtEnv) (p : List Char),
      env.tryStepErr 0 = none →
      (env.src p).initErr = none →
      countTxt (env.src p) = 0 →
      ∃ es, (getSnapshots env ⟨some [p]⟩).2 = some es ∧
        CErr.errNoObjectsToImport ∈ es) := by
  constructor
  · intro env
    constructor <;> simp [getSnapshots, getParams]
  · intro env p h1 h2 h3
    have hh : handleImportPath env p 1 [] = ([], [], [CErr.errNoObjectsToImport]) := by
      simp [handleImportPath, h2, handleAfterInit, h3]
    have hs : getSnapsAux env 1 [p] 0 [] [] [] = ([], [], [CErr.errNoObjectsToImport]) := by
      simp only [getSnapsAux, h1, hh]
      split
      · rfl
      · simp [getSnapsAux]
    simp only [getSnapshots, getParams, hs, List.length_cons, List.length_nil]
    simp only [Nat.zero_add, if_neg (Nat.one_ne_zero)]
    cases hA : env.shouldAbort [CErr.errNoObjectsToImport] 1
    · simp only [hA, Bool.false_eq_true, if_neg (fun h => h)]
      rcases hrc : env.rootCollection with e | rc
      · cases hB : env.shouldAbort [CErr.errNoObjectsToImport, e] 1
        · refine ⟨[CErr.errNoObjectsToImport, e], ?_, by simp⟩
          simp [hB, finish]
        · refine ⟨[CErr.errNoObjectsToImport, e], ?_, by simp⟩
          simp [hB]
      · refine ⟨[CErr.errNoObjectsToImport], ?_, by simp⟩
        simp [finish]
    · refine ⟨[CErr.errNoObjectsToImport], ?_, by simp⟩
      simp [hA]

end TxtSrc

namespace FileSyncSpec

/-- Updating a task in place preserves its key. -/
theorem keyIs_update (ns f : String) (k : TaskKind) (t : Task) :
    keyIs ns f (if keyIs ns f t then
        { t with kind := k, attempts := if t.kind = k then t.attempts else 0 }
      else t) = keyIs ns f t := by
  unfold keyIs
  split <;> rfl

/-- C3 (spec model): `Enqueue` is idempotent per key — it grows `Len` only
when no task with the key exists, and two `AddFile` calls in quick
succession leave exactly one pending Upload task with zero attempts. -/
theorem enqueue_idempotent :
    (∀ (s : QState) (ns f : String) (k : TaskKind) (now : Nat),
      qLen (enqueue ns f k now s) =
        if s.pending.any (keyIs ns f) then qLen s else qLen s + 1) ∧
    (∀ (ns f : String) (now1 now2 : Nat),
      ((enqueue ns f TaskKind.upload now2
          (enqueue ns f TaskKind.upload now1 emptyQ)).pending.filter (keyIs ns f)).length = 1 ∧
      qLen (enqueue ns f TaskKind.upload now2 (enqueue ns f TaskKind.upload now1 emptyQ)) = 1 ∧
      ∀ t ∈ (enqueue ns f TaskKind.upload now2
          (enqueue ns f TaskKind.upload now1 emptyQ)).pending,
        t.kind = TaskKind.upload ∧ t.attempts = 0) := by
  constructor
  · intro s ns f k now
    unfold enqueue qLen
    split <;> simp
  · intro ns f now1 now2
    have h1 : enqueue ns f TaskKind.upload now1 emptyQ =
        ⟨[⟨ns, f, TaskKind.upload, 0, now1, 0, none⟩], []⟩ := by
      simp [enqueue, emptyQ]
    have hk : keyIs ns f ⟨ns, f, TaskKind.upload, 0, now1, 0, none⟩ = true := by
      simp [keyIs]
    have h2 : enqueue ns f TaskKind.upload now2 (enqueue ns f TaskKind.upload now1 emptyQ) =
        ⟨[⟨ns, f, TaskKind.upload, 0, now1, 0, none⟩], []⟩ := by
      rw [h1]
      simp [enqueue, hk]
    rw [h2]
    refine ⟨by simp [hk], by simp [qLen], ?_⟩
    intro t ht
    simp only [List.mem_singleton] at ht
    subst ht
    exact ⟨rfl, rfl⟩

/-- C2 (spec model): enqueuing `Delete` for a key with a pending task
replaces that task in place — afterwards every task under the key has kind
Delete, the queue length and the key's task count are unchanged — and the
scheduler's handling of a Delete task makes exactly one `DeleteFile` call,
no upload-side call. -/
theorem delete_replaces_pending_upload :
    (∀ (s : QState) (ns f : String) (now : Nat),
      s.pending.any (keyIs ns f) = true →
      (∀ t ∈ (enqueue ns f TaskKind.delete now s).pending,
        keyIs ns f t = true → t.kind = TaskKind.delete) ∧
      qLen (enqueue ns f TaskKind.delete now s) = qLen s ∧
      ((enqueue ns f TaskKind.delete now s).pending.filter (keyIs ns f)).length =
        (s.pending.filter (keyIs ns f)).length) ∧
    (∀ (t : Task) (resolve : String → List String) (has : String → String → Bool)
       (q : QState),
      t.kind = TaskKind.delete →
      (processTask resolve has t q).1 = [RemoteCall.deleteCall t.space t.file]) := by
  constructor
  · intro s ns f now hAny
    refine ⟨?_, ?_, ?_⟩
    · intro t ht hk
      unfold enqueue at ht
      rw [if_pos hAny] at ht
      simp only [List.mem_map] at ht
      rcases ht with ⟨u, hu, rfl⟩
      rw [keyIs_update] at hk
      simp [hk]
    · unfold enqueue qLen
      rw [if_pos hAny]
      simp
    · unfold enqueue
      rw [if_pos hAny]
      simp only
      rw [List.filter_map, List.length_map]
      congr 1
      apply List.filter_congr
      intro t _
      exact keyIs_update ns f TaskKind.delete t
  · intro t resolve has q h
    simp [processTask, h]

end FileSyncSpec

namespace FileSyncSpec

/-- `dequeueL` returns `none` exactly when no listed task is eligible. -/
theorem dequeueL_none_iff (now : Nat) (l : List Task) :
    (dequeueL now l).1 = none ↔ ∀ t ∈ l, eligible now t = false := by
  induction l with
  | nil => simp [dequeueL]
  | cons h ts ih =>
    by_cases he : eligible now h
    · simp [dequeueL, he]
    · simp only [dequeueL, if_neg he]
      simp only [List.mem_cons]
      constructor
      · intro h1 t ht
        rcases ht with rfl | ht
        · exact Bool.eq_false_iff.2 he
        · exact (ih.1 h1) t ht
      · intro h1
        exact ih.2 (fun t ht => h1 t (Or.inr ht))

/-- A task returned by `dequeueL` is an eligible member of the list, and the
rest is one shorter. -/
theorem dequeueL_some (now : Nat) (l : List Task) (t : Task)
    (h : (dequeueL now l).1 = some t) :
    eligible now t = true ∧ t ∈ l ∧ (dequeueL now l).2.length + 1 = l.length := by
  induction l with
  | nil => simp [dequeueL] at h
  | cons a ts ih =>
    by_cases he : eligible now a
    · simp only [dequeueL, if_pos he] at h ⊢
      cases h
      exact ⟨he, List.mem_cons_self .., rfl⟩
    · simp only [dequeueL, if_neg he] at h ⊢
      rcases ih h with ⟨h1, h2, h3⟩
      exact ⟨h1, List.mem_cons_of_mem _ h2, by simpa using congrArg Nat.succ h3⟩

/-- Tasks left by `dequeueL` were in the list. -/
theorem dequeueL_rest_sub (now : Nat) (l : List Task) (u : Task)
    (h : u ∈ (dequeueL now l).2) : u ∈ l := by
  induction l with
  | nil => simp [dequeueL] at h
  | cons a ts ih =>
    by_cases he : eligible now a
    · simp only [dequeueL, if_pos he] at h
      exact List.mem_cons_of_mem _ h
    · simp only [dequeueL, if_neg he, List.mem_cons] at h
      rcases h with rfl | h
      · exact List.mem_cons_self ..
      · exact List.mem_cons_of_mem _ (ih h)

/-- On a list strictly sorted by insertion time, `dequeueL` returns the
eligible task of earliest insertion time. -/
theorem dequeueL_earliest (now : Nat) (l : List Task) (t : Task)
    (hsort : l.Pairwise (fun a b => a.insertTime < b.insertTime))
    (h : (dequeueL now l).1 = some t) :
    ∀ u ∈ l, eligible now u = true → t.insertTime ≤ u.insertTime := by
  induction l with
  | nil => simp [dequeueL] at h
  | cons a ts ih =>
    rcases List.pairwise_cons.1 hsort with ⟨ha, hts⟩
    by_cases he : eligible now a
    · simp only [dequeueL, if_pos he] at h
      cases h
      intro u hu _
      rcases List.mem_cons.1 hu with rfl | hu
      · exact Nat.le_refl _
      · exact Nat.le_of_lt (ha u hu)
    · simp only [dequeueL, if_neg he] at h
      intro u hu hel
      rcases List.mem_cons.1 hu with rfl | hu
      · exact absurd hel (by simpa using he)
      · exact ih hts h u hu hel

/-- A list's length splits into the lengths of a filter and its
complement. -/
theorem length_filter_split (p : Task → Bool) (l : List Task) :
    l.length = (l.filter p).length + (l.filter (fun t => !p t)).length := by
  induction l with
  | nil => rfl
  | cons a ts ih =>
    by_cases hp : p a <;> simp [List.filter_cons, hp, ih] <;> omega

/-- C6 (spec model): `Dequeue` yields `none` exactly when no pending task's
backoff deadline has elapsed; a yielded task is eligible, was pending, and
the queue shrinks by one; on a queue whose pending list is strictly ordered
by insertion time the yielded task has the earliest insertion time among
the eligible ones; and `Len` counts the backed-off tasks too. -/
theorem dequeue_earliest_eligible :
    (∀ (now : Nat) (s : QState),
      ((dequeue now s).1 = none ↔ ∀ t ∈ s.pending, eligible now t = false)) ∧
    (∀ (now : Nat) (s : QState) (t : Task),
      (dequeue now s).1 = some t →
      eligible now t = true ∧ t ∈ s.pending ∧ qLen (dequeue now s).2 + 1 = qLen s) ∧
    (∀ (now : Nat) (s : QState) (t : Task),
      s.pending.Pairwise (fun a b => a.insertTime < b.insertTime) →
      (dequeue now s).1 = some t →
      ∀ u ∈ s.pending, eligible now u = true → t.insertTime ≤ u.insertTime) ∧
    (∀ (now : Nat) (s : QState),
      qLen s = (s.pending.filter (eligible now)).length +
        (s.pending.filter (fun t => !eligible now t)).length) := by
  refine ⟨?_, ?_, ?_, ?_⟩
  · intro now s
    exact dequeueL_none_iff now s.pending
  · intro now s t h
    exact dequeueL_some now s.pending t h
  · intro now s t hsort h
    exact dequeueL_earliest now s.pending t hsort h
  · intro now s
    exact length_filter_split (eligible now) s.pending

end FileSyncSpec

namespace FileSyncSpec

/-- The content store of the spec's concrete scenario: `file1` resolves to
the blocks `b1`, `b2`, `b3`. -/
def resolve1 : String → List String :=
  fun file => if file = "file1" then ["b1", "b2", "b3"] else []

/-- The remote of the spec's concrete scenario: it already stores `b1`. -/
def remoteHas1 : String → String → Bool :=
  fun _ a => a == "b1"

/-- C1 (spec model): an Upload task pushes exactly the delta — the resolved
addresses the remote does not already store — and completes, draining the
queue; in the spec's concrete scenario (`file1` resolving to `[b1,b2,b3]`,
remote already holding `b1`) the push holds exactly `{b2,b3}` and the queue
length returns to 0. -/
theorem upload_pushes_exactly_delta :
    (∀ (resolve : String → List String) (has : String → String → Bool)
       (ns f : String) (now : Nat),
      ∃ t, (dequeue now (addFile ns f now emptyQ).2).1 = some t ∧
        t.kind = TaskKind.upload ∧ t.space = ns ∧ t.file = f ∧
        pushedBlocks (processTask resolve has t (dequeue now (addFile ns f now emptyQ).2).2).1 =
          (resolve f).filter (fun a => !has ns a) ∧
        (∀ b, b ∈ pushedBlocks
            (processTask resolve has t (dequeue now (addFile ns f now emptyQ).2).2).1 ↔
          (b ∈ resolve f ∧ has ns b = false)) ∧
        qLen (processTask resolve has t (dequeue now (addFile ns f now emptyQ).2).2).2 = 0) ∧
    ((dequeue 0 (addFile "space1" "file1" 0 emptyQ).2).1 =
        some ⟨"space1", "file1", TaskKind.upload, 0, 0, 0, none⟩ ∧
      (processTask resolve1 remoteHas1 ⟨"space1", "file1", TaskKind.upload, 0, 0, 0, none⟩
          (dequeue 0 (addFile "space1" "file1" 0 emptyQ).2).2).1 =
        [RemoteCall.existsQuery "space1" ["b1", "b2", "b3"],
         RemoteCall.push "space1" "file1" ["b2", "b3"]] ∧
      qLen (processTask resolve1 remoteHas1 ⟨"space1", "file1", TaskKind.upload, 0, 0, 0, none⟩
          (dequeue 0 (addFile "space1" "file1" 0 emptyQ).2).2).2 = 0) := by
  constructor
  · intro resolve has ns f now
    have hs1 : (addFile ns f now emptyQ).2 =
        ⟨[⟨ns, f, TaskKind.upload, 0, now, 0, none⟩], []⟩ := by
      simp [addFile, enqueue, emptyQ]
    have hdq : dequeue now (addFile ns f now emptyQ).2 =
        (some ⟨ns, f, TaskKind.upload, 0, now, 0, none⟩, ⟨[], []⟩) := by
      rw [hs1]
      simp [dequeue, dequeueL, eligible]
    refine ⟨⟨ns, f, TaskKind.upload, 0, now, 0, none⟩, by rw [hdq], rfl, rfl, rfl, ?_, ?_, ?_⟩
    · rw [hdq]
      simp [processTask, pushedBlocks]
    · intro b
      rw [hdq]
      simp [processTask, pushedBlocks, List.mem_filter]
    · rw [hdq]
      simp [processTask, complete, qLen]
  · refine ⟨by decide, by decide, by decide⟩

/-- C5 (spec model): `RemoveFile` returns no error, and on a queue with no
prior task for the file its Delete task makes exactly one `DeleteFile` call
— no upload-side call — after which the queue drains to length 0; the trace
is the same whatever the remote stores, so deleting an absent file is a
no-op that still succeeds. -/
theorem remove_absent_file_noop :
    ∀ (ns f : String) (now : Nat) (resolve : String → List String)
      (has has2 : String → String → Bool),
      (removeFile ns f now emptyQ).1 = none ∧
      ∃ t, (dequeue now (removeFile ns f now emptyQ).2).1 = some t ∧
        (processTask resolve has t (dequeue now (removeFile ns f now emptyQ).2).2).1 =
          [RemoteCall.deleteCall ns f] ∧
        qLen (processTask resolve has t (dequeue now (removeFile ns f now emptyQ).2).2).2 = 0 ∧
        (processTask resolve has t (dequeue now (removeFile ns f now emptyQ).2).2).1 =
          (processTask resolve has2 t (dequeue now (removeFile ns f now emptyQ).2).2).1 := by
  intro ns f now resolve has has2
  have hs1 : (removeFile ns f now emptyQ).2 =
      ⟨[⟨ns, f, TaskKind.delete, 0, now, 0, none⟩], []⟩ := by
    simp [removeFile, enqueue, emptyQ]
  have hdq : dequeue now (removeFile ns f now emptyQ).2 =
      (some ⟨ns, f, TaskKind.delete, 0, now, 0, none⟩, ⟨[], []⟩) := by
    rw [hs1]
    simp [dequeue, dequeueL, eligible]
  refine ⟨rfl, ⟨ns, f, TaskKind.delete, 0, now, 0, none⟩, by rw [hdq], ?_, ?_, ?_⟩
  · rw [hdq]
    simp [processTask]
  · rw [hdq]
    simp [processTask, complete, qLen]
  · rfl

end FileSyncSpec

namespace FileSyncSpec

/-- The in-place update of `enqueue` never changes a task's key. -/
theorem keyIs_upd_any (ns f ns1 f1 : String) (k : TaskKind) (t : Task) :
    keyIs ns f (if keyIs ns1 f1 t then
        { t with kind := k, attempts := if t.kind = k then t.attempts else 0 }
      else t) = keyIs ns f t := by
  unfold keyIs
  split <;> rfl

/-- `bump` never changes a task's key. -/
theorem keyIs_bump (ns f : String) (cfg : Config) (e : String) (now : Nat) (t : Task) :
    keyIs ns f (bump cfg e now t) = keyIs ns f t := rfl

/-- Unfolding `failL` at a head task carrying the key. -/
theorem failL_cons_key (cfg : Config) (a b e : String) (now : Nat) (t : Task)
    (ts : List Task) (hk : keyIs a b t = true) :
    failL cfg a b e now (t :: ts) =
      if cfg.maxAttempts ≤ (bump cfg e now t).attempts
      then (ts, some (bump cfg e now t))
      else (bump cfg e now t :: ts, none) := by
  simp [failL, hk]

/-- Unfolding `failL` at a head task not carrying the key. -/
theorem failL_cons_nokey (cfg : Config) (a b e : String) (now : Nat) (t : Task)
    (ts : List Task) (hk : keyIs a b t = false) :
    failL cfg a b e now (t :: ts) =
      (t :: (failL cfg a b e now ts).1, (failL cfg a b e now ts).2) := by
  simp [failL, hk]

/-- `failL` on a list holding the key's task after a key-free segment:
the task is bumped in place, or removed and dead-lettered when the bumped
attempt count reaches the configured maximum. -/
theorem failL_decomp (cfg : Config) (ns f e : String) (now : Nat)
    (pre post : List Task) (t : Task)
    (hpre : ∀ u ∈ pre, keyIs ns f u = false) (ht : keyIs ns f t = true) :
    failL cfg ns f e now (pre ++ t :: post) =
      if cfg.maxAttempts ≤ (bump cfg e now t).attempts
      then (pre ++ post, some (bump cfg e now t))
      else (pre ++ bump cfg e now t :: post, none) := by
  induction pre with
  | nil =>
    rw [List.nil_append, failL_cons_key cfg ns f e now t post ht]
    split <;> rfl
  | cons a pre ih =>
    have ha : keyIs ns f a = false := hpre a (List.mem_cons_self ..)
    have ih1 := ih (fun u hu => hpre u (List.mem_cons_of_mem _ hu))
    rw [List.cons_append, failL_cons_nokey cfg ns f e now a (pre ++ t :: post) ha, ih1]
    split <;> rfl

/-- Members of the pending list `failL` leaves: an untouched task of the
original list, or the bumped key task while it stays below the maximum
attempt count. -/
theorem failL_mem (cfg : Config) (a b e : String) (now : Nat) (l : List Task) (u : Task)
    (h : u ∈ (failL cfg a b e now l).1) :
    u ∈ l ∨ ∃ t ∈ l, u = bump cfg e now t ∧
      ¬ cfg.maxAttempts ≤ (bump cfg e now t).attempts := by
  induction l with
  | nil => simp [failL] at h
  | cons t ts ih =>
    by_cases hk : keyIs a b t = true
    · rw [failL_cons_key cfg a b e now t ts hk] at h
      by_cases hm : cfg.maxAttempts ≤ (bump cfg e now t).attempts
      · rw [if_pos hm] at h
        exact Or.inl (List.mem_cons_of_mem _ h)
      · rw [if_neg hm] at h
        rcases List.mem_cons.1 h with rfl | h1
        · exact Or.inr ⟨t, List.mem_cons_self .., rfl, hm⟩
        · exact Or.inl (List.mem_cons_of_mem _ h1)
    · rw [failL_cons_nokey cfg a b e now t ts (Bool.eq_false_iff.2 hk)] at h
      rcases List.mem_cons.1 h with rfl | h1
      · exact Or.inl (List.mem_cons_self ..)
      · rcases ih h1 with h2 | ⟨t1, ht1, h2, h3⟩
        · exact Or.inl (List.mem_cons_of_mem _ h2)
        · exact Or.inr ⟨t1, List.mem_cons_of_mem _ ht1, h2, h3⟩

end FileSyncSpec

namespace FileSyncSpec

/-- A key with no pending task stays without one under any operation that
does not enqueue it. -/
theorem noKey_preserved (cfg : Config) (ns f : String) (op : QOp) (s : QState)
    (h : ∀ u ∈ s.pending, keyIs ns f u = false)
    (hop : enqueuesKey ns f op = false) :
    ∀ u ∈ (applyOp cfg op s).pending, keyIs ns f u = false := by
  intro u hu
  cases op with
  | enq ns1 f1 k now =>
    simp only [applyOp, enqueue] at hu
    split at hu
    · simp only [List.mem_map] at hu
      rcases hu with ⟨v, hv, rfl⟩
      rw [keyIs_upd_any]
      exact h v hv
    · simp only [List.mem_append, List.mem_singleton] at hu
      rcases hu with hu | rfl
      · exact h u hu
      · simpa [enqueuesKey, keyIs] using hop
  | deq now =>
    exact h u (dequeueL_rest_sub now s.pending u hu)
  | comp ns1 f1 =>
    simp only [applyOp, complete, List.mem_filter] at hu
    exact h u hu.1
  | failOp ns1 f1 e now =>
    rcases failL_mem cfg ns1 f1 e now s.pending u hu with h1 | ⟨t1, ht1, rfl, _⟩
    · exact h u h1
    · rw [keyIs_bump]
      exact h t1 ht1

/-- C7's never-again property over whole runs: once no pending task carries
a key, no later `Dequeue` yields that key unless some operation re-enqueues
it. -/
theorem noKey_never_dequeued (cfg : Config) (ns f : String) :
    ∀ (ops : List QOp) (s : QState),
      (∀ u ∈ s.pending, keyIs ns f u = false) →
      (∀ op ∈ ops, enqueuesKey ns f op = false) →
      ∀ u ∈ dequeuedBy cfg ops s, keyIs ns f u = false := by
  intro ops
  induction ops with
  | nil =>
    intro s _ _ u hu
    simp [dequeuedBy] at hu
  | cons op ops ih =>
    intro s h hops u hu
    simp only [dequeuedBy, List.mem_append] at hu
    rcases hu with hu | hu
    · cases op with
      | deq now =>
        dsimp only at hu
        rcases hdq : (dequeue now s).1 with _ | t
        · simp [hdq] at hu
        · rw [hdq] at hu
          simp only [Option.toList_some, List.mem_singleton] at hu
          subst hu
          exact h u (dequeueL_some now s.pending u hdq).2.1
      | enq ns1 f1 k now => simp at hu
      | comp ns1 f1 => simp at hu
      | failOp ns1 f1 e now => simp at hu
    · exact ih (applyOp cfg op s)
        (noKey_preserved cfg ns f op s h (hops op (List.mem_cons_self ..)))
        (fun o ho => hops o (List.mem_cons_of_mem _ ho)) u hu

/-- The attempt counts of pending tasks stay below a positive configured
maximum under every operation. -/
theorem attempts_bound_preserved (cfg : Config) (op : QOp) (s : QState)
    (hmax : 0 < cfg.maxAttempts)
    (h : ∀ u ∈ s.pending, u.attempts < cfg.maxAttempts) :
    ∀ u ∈ (applyOp cfg op s).pending, u.attempts < cfg.maxAttempts := by
  intro u hu
  cases op with
  | enq ns1 f1 k now =>
    simp only [applyOp, enqueue] at hu
    split at hu
    · simp only [List.mem_map] at hu
      rcases hu with ⟨v, hv, rfl⟩
      split
      · simp only
        split
        · exact h v hv
        · exact hmax
      · exact h v hv
    · simp only [List.mem_append, List.mem_singleton] at hu
      rcases hu with hu | rfl
      · exact h u hu
      · exact hmax
  | deq now =>
    exact h u (dequeueL_rest_sub now s.pending u hu)
  | comp ns1 f1 =>
    simp only [applyOp, complete, List.mem_filter] at hu
    exact h u hu.1
  | failOp ns1 f1 e now =>
    rcases failL_mem cfg ns1 f1 e now s.pending u hu with h1 | ⟨t1, _, rfl, hlt⟩
    · exact h u h1
    · exact Nat.lt_of_not_le hlt

/-- C7's retry bound over whole runs from the empty queue: every task a
worker is ever handed has an attempt count below the configured maximum. -/
theorem dequeued_attempts_bound (cfg : Config) (hmax : 0 < cfg.maxAttempts) :
    ∀ (ops : List QOp) (s : QState),
      (∀ u ∈ s.pending, u.attempts < cfg.maxAttempts) →
      ∀ u ∈ dequeuedBy cfg ops s, u.attempts < cfg.maxAttempts := by
  intro ops
  induction ops with
  | nil =>
    intro s _ u hu
    simp [dequeuedBy] at hu
  | cons op ops ih =>
    intro s h u hu
    simp only [dequeuedBy, List.mem_append] at hu
    rcases hu with hu | hu
    · cases op with
      | deq now =>
        dsimp only at hu
        rcases hdq : (dequeue now s).1 with _ | t
        · simp [hdq] at hu
        · rw [hdq] at hu
          simp only [Option.toList_some, List.mem_singleton] at hu
          subst hu
          exact h u (dequeueL_some now s.pending u hdq).2.1
      | enq ns1 f1 k now => simp at hu
      | comp ns1 f1 => simp at hu
      | failOp ns1 f1 e now => simp at hu
    · exact ih (applyOp cfg op s) (attempts_bound_preserved cfg op s hmax h) u hu

end FileSyncSpec

namespace FileSyncSpec

/-- C7 (spec model): `Fail` increments the key task's attempt count and
assigns it the exponentially growing, capped backoff deadline; when the
incremented count reaches the configured maximum the task leaves the
pending list for the dead-letter list; a key left without a pending task is
never yielded by `Dequeue` again in any run that does not re-enqueue it;
and in any run from the empty queue no task is ever handed to a worker with
an attempt count at or above a positive configured maximum. -/
theorem fail_backoff_deadletter :
    (∀ (cfg : Config) (ns f e : String) (now : Nat) (s : QState)
       (pre post : List Task) (t : Task),
      s.pending = pre ++ t :: post →
      (∀ u ∈ pre, keyIs ns f u = false) →
      keyIs ns f t = true →
      (bump cfg e now t).attempts = t.attempts + 1 ∧
      (bump cfg e now t).backoffUntil =
        now + min (cfg.baseBackoff * 2 ^ (t.attempts + 1)) cfg.maxBackoff ∧
      (t.attempts + 1 < cfg.maxAttempts →
        fail cfg ns f e now s = ⟨pre ++ bump cfg e now t :: post, s.dead⟩) ∧
      (cfg.maxAttempts ≤ t.attempts + 1 →
        fail cfg ns f e now s = ⟨pre ++ post, s.dead ++ [bump cfg e now t]⟩)) ∧
    (∀ (cfg : Config) (ns f : String) (ops : List QOp) (s : QState),
      (∀ u ∈ s.pending, keyIs ns f u = false) →
      (∀ op ∈ ops, enqueuesKey ns f op = false) →
      ∀ u ∈ dequeuedBy cfg ops s, keyIs ns f u = false) ∧
    (∀ (cfg : Config) (ops : List QOp),
      0 < cfg.maxAttempts →
      ∀ u ∈ dequeuedBy cfg ops emptyQ, u.attempts < cfg.maxAttempts) := by
  refine ⟨?_, ?_, ?_⟩
  · intro cfg ns f e now s pre post t hs hpre ht
    have hd := failL_decomp cfg ns f e now pre post t hpre ht
    refine ⟨rfl, rfl, ?_, ?_⟩
    · intro hlt
      have hlt1 : ¬ cfg.maxAttempts ≤ (bump cfg e now t).attempts := Nat.not_le.2 hlt
      unfold fail
      rw [hs, hd, if_neg hlt1]
      simp
    · intro hle
      have hle1 : cfg.maxAttempts ≤ (bump cfg e now t).attempts := hle
      unfold fail
      rw [hs, hd, if_pos hle1]
      rfl
  · exact fun cfg ns f ops s h hops => noKey_never_dequeued cfg ns f ops s h hops
  · intro cfg ops hmax
    exact dequeued_attempts_bound cfg hmax ops emptyQ (by simp [emptyQ])

/-- A worked dead-letter run: with a maximum of one attempt, a single
failure moves the only task out of the pending list into the dead-letter
list, and a later dequeue yields nothing. -/
example :
    let cfg : Config := ⟨1, 2, 100⟩
    let s1 := enqueue "s" "f" TaskKind.upload 0 emptyQ
    let s2 := fail cfg "s" "f" "timeout" 1 s1
    s2.pending = [] ∧
    s2.dead = [⟨"s", "f", TaskKind.upload, 1, 0, 5, some "timeout"⟩] ∧
    (dequeue 5 s2).1 = none := by decide

end FileSyncSpec

namespace FileSyncSpec

/-- `keyIs` as a propositional equation on the key fields. -/
theorem keyIs_iff (ns f : String) (t : Task) :
    keyIs ns f t = true ↔ t.space = ns ∧ t.file = f := by
  simp [keyIs]

/-- A task sharing the durable key of a task that carries the queue key
carries the queue key too. -/
theorem keyIs_of_recKey (ns f : String) (u t0 : Task)
    (h : recKey u = recKey t0) (hk : keyIs ns f t0 = true) :
    keyIs ns f u = true := by
  rcases (keyIs_iff ns f t0).1 hk with ⟨h1, h2⟩
  unfold recKey at h
  rw [Prod.mk.injEq, Prod.mk.injEq] at h
  exact (keyIs_iff ns f u).2 ⟨h.1.trans h1, h.2.1.trans h2⟩

/-- Under the key-uniqueness invariant, a pending task carrying a key splits
the pending list into a key-free front, itself, and a key-free back. -/
theorem decompose_key (ns f : String) (s : QState) (hwf : wfQ s) (t0 : Task)
    (ht0 : t0 ∈ s.pending) (hk : keyIs ns f t0 = true) :
    ∃ pre post, s.pending = pre ++ t0 :: post ∧
      (∀ u ∈ pre, keyIs ns f u = false) ∧
      (∀ u ∈ post, keyIs ns f u = false) := by
  rcases List.append_of_mem ht0 with ⟨pre, post, hsplit⟩
  refine ⟨pre, post, hsplit, ?_, ?_⟩
  all_goals
    unfold wfQ at hwf
    rw [hsplit] at hwf
    simp only [List.map_append, List.map_cons] at hwf
    rcases List.nodup_append.1 hwf with ⟨_, hnd2, hdisj⟩
  · intro u hu
    by_contra hcon
    have hku : keyIs ns f u = true := eq_true_of_ne_false hcon
    rcases (keyIs_iff ns f u).1 hku with ⟨hu1, hu2⟩
    rcases (keyIs_iff ns f t0).1 hk with ⟨h1, h2⟩
    have : (u.space, u.file) ∈ pre.map (fun t => (t.space, t.file)) :=
      List.mem_map_of_mem _ hu
    have hmem : (t0.space, t0.file) ∈ pre.map (fun t => (t.space, t.file)) := by
      rw [show (t0.space, t0.file) = (u.space, u.file) from by rw [hu1, hu2, h1, h2]]
      exact this
    exact absurd (List.mem_cons_self ..) (hdisj hmem)
  · intro u hu
    by_contra hcon
    have hku : keyIs ns f u = true := eq_true_of_ne_false hcon
    rcases (keyIs_iff ns f u).1 hku with ⟨hu1, hu2⟩
    rcases (keyIs_iff ns f t0).1 hk with ⟨h1, h2⟩
    have hnd3 := List.nodup_cons.1 hnd2
    apply hnd3.1
    rw [show (t0.space, t0.file) = (u.space, u.file) from by rw [hu1, hu2, h1, h2]]
    exact List.mem_map_of_mem _ hu

end FileSyncSpec

namespace FileSyncSpec

/-- `find?` misses exactly when every member fails the key. -/
theorem find?_none_keys (ns f : String) (l : List Task)
    (h : l.find? (keyIs ns f) = none) : ∀ u ∈ l, keyIs ns f u = false := by
  intro u hu
  exact Bool.eq_false_iff.2 (List.find?_eq_none.1 h u hu)

/-- The enqueue transaction against the durable store commits to the
durable view of the enqueued in-memory state. -/
theorem enq_converges (cfg : Config) (ns f : String) (k : TaskKind) (now : Nat)
    (s : QState) (hwf : wfQ s) :
    (commitTxn (persistQ s) (opTxn cfg (MutOp.enq ns f k now) s)).Perm
      (persistQ (applyMut cfg (MutOp.enq ns f k now) s)) := by
  rcases hfind : s.pending.find? (keyIs ns f) with _ | t0
  · have hnone := find?_none_keys ns f s.pending hfind
    have hany : s.pending.any (keyIs ns f) = false := by
      rw [List.any_eq_false]
      intro u hu
      rw [hnone u hu]
      simp
    have hanyR : (persistQ s).any
        (fun q => recKeyR q = recKeyR (encodeTask ⟨ns, f, k, 0, now, 0, none⟩)) = false := by
      rw [List.any_eq_false]
      intro q hq
      simp only [persistQ, List.mem_map] at hq
      rcases hq with ⟨t, ht, rfl⟩
      simp only [recKeyR, encodeTask, decide_eq_true_eq, Prod.mk.injEq]
      intro heq
      have hkt : keyIs ns f t = true := (keyIs_iff ns f t).2 ⟨heq.1, heq.2.1⟩
      rw [hnone t ht] at hkt
      cases hkt
    simp only [opTxn, hfind, commitTxn, List.foldl, applyWrite, hanyR,
      Bool.false_eq_true, if_false, applyMut, enqueue, hany]
    simp [persistQ]
  · have hk0 : keyIs ns f t0 = true := List.find?_some hfind
    have ht0mem : t0 ∈ s.pending := List.mem_of_find?_eq_some hfind
    have hany : s.pending.any (keyIs ns f) = true := List.any_eq_true.2 ⟨t0, ht0mem, hk0⟩
    rcases decompose_key ns f s hwf t0 ht0mem hk0 with ⟨pre, post, hsplit, hpre, hpost⟩
    have huniq : ∀ t ∈ s.pending, keyIs ns f t = true → t = t0 := by
      intro t ht hkt
      rw [hsplit] at ht
      rcases List.mem_append.1 ht with h1 | h2
      · rw [hpre t h1] at hkt
        cases hkt
      · rcases List.mem_cons.1 h2 with rfl | h3
        · rfl
        · rw [hpost t h3] at hkt
          cases hkt
    rcases (keyIs_iff ns f t0).1 hk0 with ⟨hsp0, hfl0⟩
    by_cases hkind : t0.kind = k
    · -- same kind: a single replacing put
      simp only [opTxn, hfind, if_pos hkind, commitTxn, List.foldl, applyWrite,
        applyMut, applyOp, enqueue, hany, if_true]
      have hanyR : (persistQ s).any (fun q => recKeyR q =
          recKeyR (encodeTask { t0 with kind := k, attempts := t0.attempts })) = true := by
        rw [List.any_eq_true]
        refine ⟨encodeTask t0, List.mem_map_of_mem _ ht0mem, ?_⟩
        simp [recKeyR, encodeTask, hkind]
      rw [if_pos hanyR]
      have hmaps : ∀ t ∈ s.pending,
          (if recKeyR (encodeTask t) =
              recKeyR (encodeTask { t0 with kind := k, attempts := t0.attempts })
            then encodeTask { t0 with kind := k, attempts := t0.attempts }
            else encodeTask t) =
          encodeTask (if keyIs ns f t then
              { t with kind := k, attempts := if t.kind = k then t.attempts else 0 }
            else t) := by
        intro t ht
        by_cases hkt : keyIs ns f t = true
        · have := huniq t ht hkt
          subst this
          have hcond : recKeyR (encodeTask t) =
              recKeyR (encodeTask { t with kind := k, attempts := t.attempts }) := by
            simp [recKeyR, encodeTask, hkind]
          rw [if_pos hcond, if_pos hkt]
          simp [encodeTask, hkind]
        · rw [if_neg hkt, if_neg]
          simp only [recKeyR, encodeTask, Prod.mk.injEq]
          intro heq
          exact hkt ((keyIs_iff ns f t).2 ⟨heq.1.trans hsp0, heq.2.1.trans hfl0⟩)
      simp only [persistQ, List.map_map, Function.comp_def]
      rw [List.map_congr_left (fun t ht => hmaps t ht)]
    · -- kind change: delete the old record and put the reset one, one txn
      simp only [opTxn, hfind, if_neg hkind, commitTxn, List.foldl,
        applyMut, applyOp, enqueue, hany, if_true]
      have hpredpre : ∀ q ∈ pre.map encodeTask,
          (!(recKeyR q = recKey t0 : Bool)) = true := by
        intro q hq
        rcases List.mem_map.1 hq with ⟨u, hu, rfl⟩
        simp only [Bool.not_eq_eq_eq_not, Bool.not_true, decide_eq_false_iff_not]
        intro heq
        have : keyIs ns f u = true := keyIs_of_recKey ns f u t0 heq hk0
        rw [hpre u hu] at this
        cases this
      have hpredpost : ∀ q ∈ post.map encodeTask,
          (!(recKeyR q = recKey t0 : Bool)) = true := by
        intro q hq
        rcases List.mem_map.1 hq with ⟨u, hu, rfl⟩
        simp only [Bool.not_eq_eq_eq_not, Bool.not_true, decide_eq_false_iff_not]
        intro heq
        have : keyIs ns f u = true := keyIs_of_recKey ns f u t0 heq hk0
        rw [hpost u hu] at this
        cases this
      have hstep1 : applyWrite (persistQ s) (KvWrite.delRec (recKey t0)) =
          pre.map encodeTask ++ post.map encodeTask := by
        simp only [applyWrite, persistQ, hsplit, List.map_append, List.map_cons,
          List.filter_append, List.filter_cons]
        rw [List.filter_eq_self.mpr hpredpre, List.filter_eq_self.mpr hpredpost,
          if_neg (by simp [recKeyR, encodeTask, recKey])]
      have hanyR2 : (pre.map encodeTask ++ post.map encodeTask).any
          (fun q => recKeyR q = recKeyR (encodeTask { t0 with kind := k, attempts := 0 })) =
          false := by
        rw [List.any_eq_false]
        intro q hq
        have hq1 : q ∈ pre.map encodeTask ++ post.map encodeTask := hq
        rcases List.mem_append.1 hq1 with hq2 | hq2
        all_goals
          rcases List.mem_map.1 hq2 with ⟨u, hu, rfl⟩
          simp only [recKeyR, encodeTask, decide_eq_true_eq, Prod.mk.injEq]
          intro heq
          have hku : keyIs ns f u = true :=
            (keyIs_iff ns f u).2 ⟨heq.1.trans hsp0, heq.2.1.trans hfl0⟩
        · rw [hpre u hu] at hku
          cases hku
        · rw [hpost u hu] at hku
          cases hku
      rw [hstep1]
      simp only [applyWrite, hanyR2, Bool.false_eq_true, if_false]
      have hupdid : ∀ u ∈ pre ++ post, (if keyIs ns f u then
          { u with kind := k, attempts := if u.kind = k then u.attempts else 0 }
        else u) = u := by
        intro u hu
        rcases List.mem_append.1 hu with h1 | h1
        · rw [if_neg (by rw [hpre u h1]; exact Bool.false_ne_true)]
        · rw [if_neg (by rw [hpost u h1]; exact Bool.false_ne_true)]
      have hupd0 : (if keyIs ns f t0 then
          { t0 with kind := k, attempts := if t0.kind = k then t0.attempts else 0 }
        else t0) = { t0 with kind := k, attempts := 0 } := by
        rw [if_pos hk0, if_neg hkind]
      have hmem : (s.pending.map (fun t => if keyIs ns f t then
          { t with kind := k, attempts := if t.kind = k then t.attempts else 0 }
        else t)) = pre ++ { t0 with kind := k, attempts := 0 } :: post := by
        rw [hsplit, List.map_append, List.map_cons, hupd0]
        rw [List.map_congr_left (fun u hu => hupdid u (List.mem_append.2 (Or.inl hu)))]
        rw [List.map_congr_left (fun u hu => hupdid u (List.mem_append.2 (Or.inr hu)))]
        simp [List.map_id]
      simp only [persistQ, hmem, List.map_append, List.map_cons]
      rw [List.append_assoc]
      exact List.Perm.append_left _ (List.perm_append_singleton ..)

end FileSyncSpec

namespace FileSyncSpec

/-- Deleting a key's record from the durable view of a decomposed pending
list removes exactly the key task's record. -/
theorem applyWrite_del_key (ns f : String) (t0 : Task) (pre post : List Task)
    (hk0 : keyIs ns f t0 = true)
    (hpre : ∀ u ∈ pre, keyIs ns f u = false)
    (hpost : ∀ u ∈ post, keyIs ns f u = false) :
    applyWrite ((pre ++ t0 :: post).map encodeTask) (KvWrite.delRec (recKey t0)) =
      pre.map encodeTask ++ post.map encodeTask := by
  have hpredpre : ∀ q ∈ pre.map encodeTask,
      (!(recKeyR q = recKey t0 : Bool)) = true := by
    intro q hq
    rcases List.mem_map.1 hq with ⟨u, hu, rfl⟩
    simp only [Bool.not_eq_eq_eq_not, Bool.not_true, decide_eq_false_iff_not]
    intro heq
    have h1 : keyIs ns f u = true := keyIs_of_recKey ns f u t0 heq hk0
    rw [hpre u hu] at h1
    cases h1
  have hpredpost : ∀ q ∈ post.map encodeTask,
      (!(recKeyR q = recKey t0 : Bool)) = true := by
    intro q hq
    rcases List.mem_map.1 hq with ⟨u, hu, rfl⟩
    simp only [Bool.not_eq_eq_eq_not, Bool.not_true, decide_eq_false_iff_not]
    intro heq
    have h1 : keyIs ns f u = true := keyIs_of_recKey ns f u t0 heq hk0
    rw [hpost u hu] at h1
    cases h1
  simp only [applyWrite, List.map_append, List.map_cons, List.filter_append,
    List.filter_cons]
  rw [List.filter_eq_self.mpr hpredpre, List.filter_eq_self.mpr hpredpost,
    if_neg (by simp [recKeyR, encodeTask, recKey])]

/-- Filtering a decomposed pending list down to the non-key tasks removes
exactly the key task. -/
theorem filter_nokey_decomp (ns f : String) (t0 : Task) (pre post : List Task)
    (hk0 : keyIs ns f t0 = true)
    (hpre : ∀ u ∈ pre, keyIs ns f u = false)
    (hpost : ∀ u ∈ post, keyIs ns f u = false) :
    (pre ++ t0 :: post).filter (fun t => !keyIs ns f t) = pre ++ post := by
  rw [List.filter_append, List.filter_cons,
    List.filter_eq_self.mpr (fun u hu => by rw [hpre u hu]; rfl),
    List.filter_eq_self.mpr (fun u hu => by rw [hpost u hu]; rfl),
    if_neg (by rw [hk0]; simp)]

/-- `failL` leaves a list with no key task untouched. -/
theorem failL_nokey (cfg : Config) (a b e : String) (now : Nat) (l : List Task)
    (h : ∀ u ∈ l, keyIs a b u = false) :
    failL cfg a b e now l = (l, none) := by
  induction l with
  | nil => rfl
  | cons t ts ih =>
    rw [failL_cons_nokey cfg a b e now t ts (h t (List.mem_cons_self ..)),
      ih (fun u hu => h u (List.mem_cons_of_mem _ hu))]

/-- The completion transaction against the durable store commits to the
durable view of the completed in-memory state. -/
theorem comp_converges (cfg : Config) (ns f : String) (s : QState) (hwf : wfQ s) :
    (commitTxn (persistQ s) (opTxn cfg (MutOp.comp ns f) s)).Perm
      (persistQ (applyMut cfg (MutOp.comp ns f) s)) := by
  rcases hfind : s.pending.find? (keyIs ns f) with _ | t0
  · have hnone := find?_none_keys ns f s.pending hfind
    simp only [opTxn, hfind, commitTxn, List.foldl, applyMut, applyOp, complete]
    rw [List.filter_eq_self.mpr (fun u hu => by rw [hnone u hu]; rfl)]
  · have hk0 : keyIs ns f t0 = true := List.find?_some hfind
    have ht0mem : t0 ∈ s.pending := List.mem_of_find?_eq_some hfind
    rcases decompose_key ns f s hwf t0 ht0mem hk0 with ⟨pre, post, hsplit, hpre, hpost⟩
    simp only [opTxn, hfind, commitTxn, List.foldl, applyMut, applyOp, complete, persistQ]
    rw [hsplit, applyWrite_del_key ns f t0 pre post hk0 hpre hpost,
      filter_nokey_decomp ns f t0 pre post hk0 hpre hpost, List.map_append]

/-- The failure transaction against the durable store commits to the
durable view of the failed in-memory state. -/
theorem fail_converges (cfg : Config) (ns f e : String) (now : Nat) (s : QState)
    (hwf : wfQ s) :
    (commitTxn (persistQ s) (opTxn cfg (MutOp.failOp ns f e now) s)).Perm
      (persistQ (applyMut cfg (MutOp.failOp ns f e now) s)) := by
  rcases hfind : s.pending.find? (keyIs ns f) with _ | t0
  · have hnone := find?_none_keys ns f s.pending hfind
    simp only [opTxn, hfind, commitTxn, List.foldl, applyMut, applyOp, fail,
      failL_nokey cfg ns f e now s.pending hnone]
    simp [persistQ]
  · have hk0 : keyIs ns f t0 = true := List.find?_some hfind
    have ht0mem : t0 ∈ s.pending := List.mem_of_find?_eq_some hfind
    rcases decompose_key ns f s hwf t0 ht0mem hk0 with ⟨pre, post, hsplit, hpre, hpost⟩
    have hdecomp := failL_decomp cfg ns f e now pre post t0 hpre hk0
    by_cases hmax : cfg.maxAttempts ≤ (bump cfg e now t0).attempts
    · simp only [opTxn, hfind, if_pos hmax, commitTxn, List.foldl, applyMut, applyOp,
        fail, persistQ]
      rw [hsplit, applyWrite_del_key ns f t0 pre post hk0 hpre hpost, hdecomp,
        if_pos hmax, List.map_append]
    · simp only [opTxn, hfind, if_neg hmax, commitTxn, List.foldl, applyMut, applyOp,
        fail, persistQ]
      rw [hsplit, hdecomp, if_neg hmax]
      have hanyR : ((List.map encodeTask pre ++
            encodeTask t0 :: List.map encodeTask post).any
          (fun q => recKeyR q = recKeyR (encodeTask (bump cfg e now t0)))) = true := by
        rw [List.any_eq_true]
        refine ⟨encodeTask t0, by simp, by simp [recKeyR, encodeTask, bump]⟩
      simp only [applyWrite, List.map_append, List.map_cons]
      have hkeep : ∀ (l : List Task), (∀ u ∈ l, keyIs ns f u = false) →
          (l.map encodeTask).map (fun q =>
            if recKeyR q = recKeyR (encodeTask (bump cfg e now t0))
            then encodeTask (bump cfg e now t0) else q) = l.map encodeTask := by
        intro l hl
        rw [List.map_map]
        apply List.map_congr_left
        intro u hu
        simp only [Function.comp_apply]
        refine if_neg ?_
        intro heq
        have h1 : keyIs ns f u = true := keyIs_of_recKey ns f u t0 ?_ hk0
        · rw [hl u hu] at h1
          cases h1
        · simpa [recKeyR, encodeTask, bump, recKey] using heq
      rw [hkeep pre hpre, hkeep post hpost]
      have hhead : (if recKeyR (encodeTask t0) = recKeyR (encodeTask (bump cfg e now t0))
          then encodeTask (bump cfg e now t0) else encodeTask t0) =
          encodeTask (bump cfg e now t0) := if_pos rfl
      rw [hhead, if_pos hanyR]

end FileSyncSpec

namespace FileSyncSpec

/-- C4 (spec model): each mutating queue operation (`Enqueue`, `Complete`,
`Fail`) is one atomically committed transaction — a crash before the commit
point leaves the prior durable state intact, a crash after it leaves the
fully written state, and on a key-unique queue the committed store is
exactly the durable view of the new in-memory state (no task lost,
duplicated or partially written); restart reloads every persisted task,
backoff reset. -/
theorem mutating_ops_single_txn :
    (∀ (cfg : Config) (op : MutOp) (s : QState),
      crashDurable (persistQ s) (opTxn cfg op s) false = persistQ s) ∧
    (∀ (cfg : Config) (op : MutOp) (s : QState),
      crashDurable (persistQ s) (opTxn cfg op s) true =
        commitTxn (persistQ s) (opTxn cfg op s)) ∧
    (∀ (cfg : Config) (op : MutOp) (s : QState),
      wfQ s →
      (commitTxn (persistQ s) (opTxn cfg op s)).Perm (persistQ (applyMut cfg op s))) ∧
    (∀ s : QState, loadQ (persistQ s) = resetBackoffs s) := by
  refine ⟨?_, ?_, ?_, ?_⟩
  · intro cfg op s
    rfl
  · intro cfg op s
    rfl
  · intro cfg op s hwf
    cases op with
    | enq ns f k now => exact enq_converges cfg ns f k now s hwf
    | comp ns f => exact comp_converges cfg ns f s hwf
    | failOp ns f e now => exact fail_converges cfg ns f e now s hwf
  · intro s
    have h : ∀ t : Task, decodeTask (encodeTask t) = { t with backoffUntil := 0 } := by
      intro t
      cases t
      rfl
    simp [loadQ, persistQ, resetBackoffs, List.map_map, Function.comp_def, h]

end FileSyncSpec

namespace FileSyncSpec

/-- A backed-off task is skipped: at time 1, the earlier-inserted task with
deadline 5 is passed over and the later-inserted eligible one is returned,
while `Len` still counts both. -/
example :
    let tA : Task := ⟨"s", "a", TaskKind.upload, 1, 0, 5, some "e"⟩
    let tB : Task := ⟨"s", "b", TaskKind.upload, 0, 1, 0, none⟩
    let s : QState := ⟨[tA, tB], []⟩
    (dequeue 1 s).1 = some tB ∧ qLen s = 2 ∧ qLen (dequeue 1 s).2 = 1 := by decide

/-- A concrete kind-changing enqueue transaction: the old Upload record is
deleted and the reset Delete record put, in one transaction, and the commit
matches the durable view of the updated queue up to record order. -/
example :
    let t0 : Task := ⟨"s", "a", TaskKind.upload, 2, 0, 7, some "e"⟩
    let t1 : Task := ⟨"s", "b", TaskKind.upload, 0, 1, 0, none⟩
    let s : QState := ⟨[t0, t1], []⟩
    wfQ s ∧
    opTxn ⟨5, 2, 100⟩ (MutOp.enq "s" "a" TaskKind.delete 9) s =
      [KvWrite.delRec ("s", "a", TaskKind.upload),
       KvWrite.put ⟨"s", "a", TaskKind.delete, 0, 0, some "e"⟩] ∧
    commitTxn (persistQ s) (opTxn ⟨5, 2, 100⟩ (MutOp.enq "s" "a" TaskKind.delete 9) s) =
      [⟨"s", "b", TaskKind.upload, 0, 1, none⟩, ⟨"s", "a", TaskKind.delete, 0, 0, some "e"⟩] ∧
    persistQ (applyMut ⟨5, 2, 100⟩ (MutOp.enq "s" "a" TaskKind.delete 9) s) =
      [⟨"s", "a", TaskKind.delete, 0, 0, some "e"⟩, ⟨"s", "b", TaskKind.upload, 0, 1, none⟩] := by
  decide

/-- A concrete delete-replaces-upload run: after `RemoveFile` over a pending
Upload for the same file, the queue holds one Delete task and nothing else. -/
example :
    let s1 := enqueue "s" "f" TaskKind.upload 0 emptyQ
    let s2 := enqueue "s" "f" TaskKind.delete 1 s1
    s2.pending = [⟨"s", "f", TaskKind.delete, 0, 0, 0, none⟩] ∧ qLen s2 = 1 := by decide

end FileSyncSpec

namespace TxtSrc

/-- A concrete environment whose single path yields a source with no `.txt`
file: the run records `ErrNoObjectsToImport` and returns it. -/
def envNoTxt : TxtEnv where
  src := fun _ => ⟨none, [⟨str "notes.md", none⟩], none⟩
  tryStepErr := fun _ => none
  shouldAbort := fun errs _ => !errs.isEmpty
  rootCollection := Except.ok none

example :
    (getSnapshots envNoTxt ⟨some [str "dir"]⟩).2 = some [CErr.errNoObjectsToImport] ∧
    (getSnapshots envNoTxt ⟨some [str "dir"]⟩).1 = none := by decide

end TxtSrc
